import Mathlib

/-!
Shallow embedding of `src/main.rs` (collatz_bigint_file): the expression
parser `parse_input` / `parse_bigint`, the sequence generator `collatz`
(modelled as the list of values it writes, with explicit fuel for the
unbounded `while` loop), and the statistics collector `line_read`.
`BigInt` is modelled by `Int` (exact arbitrary-precision arithmetic);
Rust `%` and `/` on `BigInt` truncate toward zero, so they are modelled
by `Int.tmod` and `Int.tdiv`.
-/

namespace Collatz

/-- Rust `str::trim` (the inputs of interest are ASCII, where Lean's
`Char.isWhitespace` agrees with Rust's trimming). -/
def trimChars (cs : List Char) : List Char :=
  ((cs.dropWhile Char.isWhitespace).reverse.dropWhile Char.isWhitespace).reverse

/-- Numeric value of a decimal digit character. -/
def digitVal (c : Char) : Nat := c.toNat - 48

/-- Value of a string of decimal digits, most significant first. -/
def digitsToNat (ds : List Char) : Nat := ds.foldl (fun a c => 10 * a + digitVal c) 0

/-- Rust `<u32 as FromStr>::parse` applied to an all-digit capture:
succeeds exactly when the value fits in `u32`. -/
def parseU32 (ds : List Char) : Option Nat :=
  if digitsToNat ds ≤ 4294967295 then some (digitsToNat ds) else none

/-- Rust `<BigInt as FromStr>::parse`: an optional sign followed by one
or more decimal digits. -/
def parseIntStr (cs : List Char) : Option Int :=
  match cs with
  | [] => none
  | c :: ds =>
    if c = '+' then
      if ds ≠ [] ∧ ds.all Char.isDigit then some (digitsToNat ds : Int) else none
    else if c = '-' then
      if ds ≠ [] ∧ ds.all Char.isDigit then some (-(digitsToNat ds : Int)) else none
    else if (c :: ds).all Char.isDigit then some (digitsToNat (c :: ds) : Int) else none

/-- `parse_bigint` from src/main.rs: trim, parse as `BigInt`, and require
the value to be strictly positive; `none` models the `Err` case. -/
def parse_bigint (cs : List Char) : Option Int :=
  match parseIntStr (trimChars cs) with
  | some v => if 0 < v then some v else none
  | none => none

/-- One attempt to match the regex `(\d+)\^(\d+)(?:-(\d+))?` at the start
of `cs`, returning the three captured digit groups (greedy `\d+`, and the
optional `-(\d+)` group is taken when present). -/
def matchAt (cs : List Char) : Option (List Char × List Char × Option (List Char)) :=
  let p1 := cs.span Char.isDigit
  if p1.1 = [] then none
  else
    match p1.2 with
    | '^' :: r2 =>
      let p2 := r2.span Char.isDigit
      if p2.1 = [] then none
      else
        match p2.2 with
        | '-' :: r4 =>
          let p3 := r4.span Char.isDigit
          if p3.1 = [] then some (p1.1, p2.1, none) else some (p1.1, p2.1, some p3.1)
        | _ => some (p1.1, p2.1, none)
    | _ => none

/-- Leftmost match of the regex over the whole input
(Rust `Regex::captures` is a containment search, not anchored). -/
def findMatch : List Char → Option (List Char × List Char × Option (List Char))
  | [] => none
  | c :: cs =>
    match matchAt (c :: cs) with
    | some m => some m
    | none => findMatch cs

/-- Outcome of `parse_input`: `ok v` models `Some(v)`, `invalid` models
`None`, and `crash` models a panic of `.parse::<u32>().unwrap()` on a
captured group. -/
inductive ParseOutcome where
  | ok (v : Int)
  | invalid
  | crash
deriving DecidableEq

/-- The third capture with its default: `captures.get(3).map(..).unwrap_or("0")`
then `parse::<u32>()`. -/
def subCapture : Option (List Char) → Option Nat
  | none => some 0
  | some d => parseU32 d

/-- `parse_input` from src/main.rs. -/
def parse_input (cs : List Char) : ParseOutcome :=
  match findMatch cs with
  | some (b, e, sub) =>
    match parseU32 b, parseU32 e, subCapture sub with
    | some bv, some ev, some sv => ParseOutcome.ok ((bv : Int) ^ ev - (sv : Int))
    | _, _, _ => ParseOutcome.crash
  | none =>
    match parse_bigint cs with
    | some v => ParseOutcome.ok v
    | none => ParseOutcome.invalid

/-- The body of the `while` loop in `collatz`: Rust `BigInt` `%` and `/`
truncate toward zero. -/
def collatzStep (n : Int) : Int :=
  if Int.tmod n 2 = 0 then Int.tdiv n 2 else 3 * n + 1

/-- The list of values `collatz` writes to the output file, with explicit
fuel bounding the number of iterations of the unbounded `while` loop. -/
def collatzList : Nat → Int → List Int
  | 0, _ => []
  | fuel + 1, n =>
    if n = 1 then []
    else collatzStep n :: collatzList fuel (collatzStep n)

/-- The mutable statistics threaded through `line_read` and `main`. -/
structure Stats where
  even : Nat
  odd : Nat
  max_value : Int
  max_index : Nat
  stopping_time : Nat
deriving DecidableEq

/-- The initial values set at the top of `main`. -/
def initStats : Stats := ⟨0, 0, 0, 0, 0⟩

/-- The `Ok(num)` branch of `line_read` for the value parsed on 0-based
line index `i`. -/
def stepStats (i : Nat) (st : Stats) (num : Int) : Stats :=
  let st1 := if Int.tmod num 2 = 0 then { st with even := st.even + 1 }
             else { st with odd := st.odd + 1 }
  let st2 := if st1.max_value < num then { st1 with max_value := num, max_index := i + 1 }
             else st1
  { st2 with stopping_time := i + 1 }

/-- The loop of `line_read`: fold over the remaining lines from 0-based
index `i`, collecting the 1-based line numbers of parse warnings. -/
def lineReadAux : Nat → Stats → List Nat → List (List Char) → Stats × List Nat
  | _, st, ws, [] => (st, ws.reverse)
  | i, st, ws, l :: ls =>
    match parse_bigint l with
    | some num => lineReadAux (i + 1) (stepStats i st num) ws ls
    | none => lineReadAux (i + 1) st ((i + 1) :: ws) ls

/-- `line_read` from src/main.rs: final statistics and warned line numbers. -/
def line_read (lines : List (List Char)) : Stats × List Nat :=
  lineReadAux 0 initStats [] lines

/-- Externally visible effects of `main`, in order. -/
inductive Event where
  | createSink
  | writeLine (v : Int)
  | readBack
  | rejectInput
deriving DecidableEq

/-- The effect order of `main` for a given input line: the output file is
created (`def_output`) only after `parse_input` returns `Some`; on `None`
only the rejection message is printed; on a capture panic the process
aborts with no effect. -/
def mainTrace (input : List Char) (fuel : Nat) : List Event :=
  match parse_input input with
  | ParseOutcome.ok v =>
    Event.createSink :: (collatzList fuel v).map Event.writeLine ++ [Event.readBack]
  | ParseOutcome.invalid => [Event.rejectInput]
  | ParseOutcome.crash => []

/-- Decimal rendering of a natural number (`writeln!(output_file, "{}", n)`
for the positive values the generator emits). -/
def natToDecimal (n : Nat) : List Char :=
  ((Nat.digits 10 n).map (fun d => Char.ofNat (48 + d))).reverse

/-- The success path of `line_read` as a fold over already-parsed values;
`lineReadAux` agrees with it when every line parses. -/
def foldStats : Nat → Stats → List Int → Stats
  | _, st, [] => st
  | i, st, v :: vs => foldStats (i + 1) (stepStats i st v) vs

/-- The max-tracking invariant of the collector: the running maximum
fields of `st` correctly summarize the values `ps` seen on lines
1..ps.length, with `max_index` the 1-based position of the first
occurrence of the maximum. -/
def MaxInv (ps : List Int) (st : Stats) : Prop :=
  st.max_index ≤ ps.length ∧
  (ps = [] → st.max_index = 0 ∧ st.max_value = 0) ∧
  (ps ≠ [] → 1 ≤ st.max_index ∧ ps.getD (st.max_index - 1) 0 = st.max_value) ∧
  (∀ j, j < st.max_index - 1 → ps.getD j 0 < st.max_value) ∧
  (∀ j, j < ps.length → ps.getD j 0 ≤ st.max_value)

/-! Lemmas about the generator. -/

theorem collatzList_one (fuel : Nat) : collatzList fuel 1 = [] := by
  cases fuel <;> simp [collatzList]

theorem collatzList_cons (fuel : Nat) (n : Int) (h : n ≠ 1) :
    collatzList (fuel + 1) n = collatzStep n :: collatzList fuel (collatzStep n) := by
  simp [collatzList, h]

theorem collatzList_chain (fuel : Nat) (n : Int) :
    List.Chain (fun a b => b = collatzStep a) n (collatzList fuel n) := by
  induction fuel generalizing n with
  | zero => exact List.Chain.nil
  | succ fuel ih =>
    by_cases h : n = 1
    · simp [collatzList, h]
    · rw [collatzList_cons fuel n h]
      exact List.Chain.cons rfl (ih (collatzStep n))

theorem collatzList_last (k : Nat) (n : Int) (hn : n ≠ 1)
    (hk : collatzStep^[k] n = 1) : (collatzList k n).getLast? = some 1 := by
  induction k generalizing n with
  | zero =>
    simp only [Function.iterate_zero_apply] at hk
    exact absurd hk hn
  | succ k ih =>
    rw [Function.iterate_succ_apply] at hk
    rw [collatzList_cons k n hn]
    by_cases h1 : collatzStep n = 1
    · rw [h1, collatzList_one]; rfl
    · have htail := ih (collatzStep n) h1 hk
      cases hL : collatzList k (collatzStep n) with
      | nil => rw [hL] at htail; simp at htail
      | cons b l =>
        rw [hL] at htail
        rw [List.getLast?_cons_cons]
        exact htail

theorem collatzStep_pos (n : Int) (hn : 0 < n) : 0 < collatzStep n := by
  unfold collatzStep
  by_cases h : Int.tmod n 2 = 0
  · rw [if_pos h]
    have hmod : n % 2 = 0 := by
      rwa [Int.tmod_eq_emod hn.le (by norm_num)] at h
    obtain ⟨k, hk⟩ := Int.dvd_of_emod_eq_zero hmod
    subst hk
    rw [Int.tdiv_eq_ediv hn.le (by norm_num), Int.mul_ediv_cancel_left k (by norm_num)]
    omega
  · rw [if_neg h]; linarith

theorem collatzList_pos (fuel : Nat) (n : Int) (hn : 0 < n) :
    ∀ x ∈ collatzList fuel n, 0 < x := by
  induction fuel generalizing n with
  | zero => intro x hx; simp [collatzList] at hx
  | succ fuel ih =>
    intro x hx
    by_cases h1 : n = 1
    · rw [h1, collatzList_one] at hx; simp at hx
    · rw [collatzList_cons fuel n h1] at hx
      rcases List.mem_cons.mp hx with h | h
      · rw [h]; exact collatzStep_pos n hn
      · exact ih (collatzStep n) (collatzStep_pos n hn) x h

theorem collatzStep_eq_spec (n : Int) (hn : 0 ≤ n) :
    collatzStep n = if n % 2 = 0 then n / 2 else 3 * n + 1 := by
  unfold collatzStep
  rw [Int.tmod_eq_emod hn (by norm_num), Int.tdiv_eq_ediv hn (by norm_num)]

/-- C1: for every start value n > 1 whose Collatz iteration reaches 1, the
generator emits exactly the Collatz successors of n in order, excluding n
itself: the first emitted element is n/2 for even n and 3n+1 for odd n,
each later element is the Collatz step of its predecessor, the final
emitted element is 1, and from 6 the emitted list is
3, 10, 5, 16, 8, 4, 2, 1. -/
theorem generator_emits_successors (n : Int) (k : Nat) (hn : 1 < n)
    (hk : collatzStep^[k] n = 1) :
    ∃ fuel,
      (collatzList fuel n).head? = some (if n % 2 = 0 then n / 2 else 3 * n + 1) ∧
      List.Chain (fun a b => b = collatzStep a) n (collatzList fuel n) ∧
      (collatzList fuel n).getLast? = some 1 ∧
      collatzList 8 6 = [3, 10, 5, 16, 8, 4, 2, 1] := by
  have hne : n ≠ 1 := hn.ne'
  refine ⟨k, ?_, collatzList_chain k n, collatzList_last k n hne hk, by decide⟩
  cases k with
  | zero =>
    simp only [Function.iterate_zero_apply] at hk
    exact absurd hk hne
  | succ k =>
    rw [collatzList_cons k n hne, List.head?_cons, collatzStep_eq_spec n (by linarith)]

/-- Witness for C1 at n = 6, k = 8. -/
theorem generator_emits_successors_witness :
    (1 : Int) < 6 ∧ collatzStep^[8] (6 : Int) = 1 ∧
    (∃ fuel,
      (collatzList fuel 6).head? = some (if (6 : Int) % 2 = 0 then 6 / 2 else 3 * 6 + 1) ∧
      List.Chain (fun a b => b = collatzStep a) 6 (collatzList fuel 6) ∧
      (collatzList fuel 6).getLast? = some 1 ∧
      collatzList 8 6 = [3, 10, 5, 16, 8, 4, 2, 1]) :=
  ⟨by norm_num, by decide, generator_emits_successors 6 8 (by norm_num) (by decide)⟩

/-- C9: for every strictly positive start value, every value the generator
emits is strictly positive, and the Collatz step preserves strict
positivity. -/
theorem emitted_values_strictly_positive (n : Int) (fuel : Nat) (hn : 0 < n) :
    (∀ x ∈ collatzList fuel n, 0 < x) ∧ ∀ m : Int, 0 < m → 0 < collatzStep m :=
  ⟨collatzList_pos fuel n hn, fun m hm => collatzStep_pos m hm⟩

/-- Witness for C9 at n = 5, fuel = 6. -/
theorem emitted_values_strictly_positive_witness :
    (0 : Int) < 5 ∧
    ((∀ x ∈ collatzList 6 5, 0 < x) ∧ ∀ m : Int, 0 < m → 0 < collatzStep m) :=
  ⟨by norm_num, emitted_values_strictly_positive 5 6 (by norm_num)⟩

/-- C2: the spec requires the parser to reject every non-positive result
with InvalidInput, but the expression branch of `parse_input` performs no
positivity check: "2^10-2000" is accepted as -976 (the plain-decimal
examples "0", "-5", "abc" are rejected as specified). -/
theorem parser_accepts_negative_expression_result :
    parse_input (String.toList "0") = ParseOutcome.invalid ∧
    parse_input (String.toList "-5") = ParseOutcome.invalid ∧
    parse_input (String.toList "abc") = ParseOutcome.invalid ∧
    parse_input (String.toList "2^10-2000") = ParseOutcome.ok (-976) ∧
    ¬ (0 : Int) < -976 := by decide

/-- C3 counterexample: on "2^4294967296" the exponent capture does not fit
in u32, and `parse_input` panics (crash) instead of failing with
InvalidInput, so the parser does bound the exponent and does abort. -/
theorem oversized_exponent_not_invalid :
    parse_input (String.toList "2^4294967296") = ParseOutcome.crash ∧
    ParseOutcome.crash ≠ ParseOutcome.invalid ∧
    4294967295 < digitsToNat (String.toList "4294967296") := by decide

/-- C3 amended: whenever the expression pattern matches but a captured
group (base, exponent, or subtract) does not fit in u32, `parse_input`
panics (`unwrap` on the failed parse), aborting the run; in particular the
exponent is bounded by u32::MAX. -/
theorem capture_overflow_panics (s b e : List Char) (sub : Option (List Char))
    (hm : findMatch s = some (b, e, sub))
    (hfail : parseU32 b = none ∨ parseU32 e = none ∨ subCapture sub = none) :
    parse_input s = ParseOutcome.crash := by
  unfold parse_input
  rw [hm]
  cases hb : parseU32 b <;> cases he : parseU32 e <;> cases hs : subCapture sub <;>
    simp_all

/-- Witness for the amended C3 at input "2^4294967296". -/
theorem capture_overflow_panics_witness :
    parse_input (String.toList "99^4294967296") = ParseOutcome.crash :=
  capture_overflow_panics (String.toList "99^4294967296")
    (String.toList "99") (String.toList "4294967296") none (by decide)
    (Or.inr (Or.inl (by decide)))

/-- C6: the expression form is evaluated exactly as base^exponent -
subtract over unbounded integers, with subtract defaulting to 0;
parse("27") = 27, parse("2^10") = 1024, parse("2^10-1") = 1023. -/
theorem expression_evaluated_exactly (s b e : List Char) (sub : Option (List Char))
    (bv ev sv : Nat) (hm : findMatch s = some (b, e, sub))
    (hb : parseU32 b = some bv) (he : parseU32 e = some ev)
    (hs : subCapture sub = some sv) :
    parse_input s = ParseOutcome.ok ((bv : Int) ^ ev - (sv : Int)) ∧
    subCapture none = some 0 ∧
    parse_input (String.toList "27") = ParseOutcome.ok 27 ∧
    parse_input (String.toList "2^10") = ParseOutcome.ok 1024 ∧
    parse_input (String.toList "2^10-1") = ParseOutcome.ok 1023 := by
  refine ⟨?_, rfl, by decide, by decide, by decide⟩
  simp only [parse_input, hm, hb, he, hs]

/-- Witness for C6 at input "2^10-1". -/
theorem expression_evaluated_exactly_witness :
    parse_input (String.toList "2^10-1") =
      ParseOutcome.ok ((2 : Int) ^ (10 : Nat) - (1 : Int)) :=
  (expression_evaluated_exactly (String.toList "2^10-1")
    (String.toList "2") (String.toList "10") (some (String.toList "1"))
    2 10 1 (by decide) (by decide) (by decide) (by decide)).1

/-- C4: on persisted lines 5, "xx", 9 the collector reports exactly one
warning, for line 2, completes the pass, ends with even + odd = 2, and
ends with stopping_time = 3 (updated only on successful parses). -/
theorem collector_tolerates_malformed_line :
    (line_read [String.toList "5", String.toList "xx", String.toList "9"]).2 = [2] ∧
    (line_read [String.toList "5", String.toList "xx", String.toList "9"]).1.even +
      (line_read [String.toList "5", String.toList "xx", String.toList "9"]).1.odd = 2 ∧
    (line_read [String.toList "5", String.toList "xx", String.toList "9"]).1.stopping_time
      = 3 := by decide

theorem lineReadAux_all_fail (ls : List (List Char)) :
    ∀ i st ws, (∀ l ∈ ls, parse_bigint l = none) →
      (lineReadAux i st ws ls).1 = st := by
  induction ls with
  | nil => intro i st ws _; rfl
  | cons l ls ih =>
    intro i st ws h
    have hl : parse_bigint l = none := h l (List.mem_cons_self l ls)
    simp only [lineReadAux, hl]
    exact ih (i + 1) st ((i + 1) :: ws) fun x hx => h x (List.mem_cons_of_mem l hx)

/-- C10: when the source is empty or every line fails to parse, every
statistics field keeps its initial value, and in particular the reported
max_value is 0. -/
theorem all_failing_lines_keep_initial_stats (lines : List (List Char))
    (h : ∀ l ∈ lines, parse_bigint l = none) :
    (line_read lines).1.stopping_time = 0 ∧ (line_read lines).1.even = 0 ∧
    (line_read lines).1.odd = 0 ∧ (line_read lines).1.max_index = 0 ∧
    (line_read lines).1.max_value = 0 := by
  have hst := lineReadAux_all_fail lines 0 initStats [] h
  unfold line_read
  rw [hst]
  exact ⟨rfl, rfl, rfl, rfl, rfl⟩

/-- Witness for C10 on lines "xx", "-3". -/
theorem all_failing_lines_keep_initial_stats_witness :
    (∀ l ∈ [String.toList "xx", String.toList "-3"], parse_bigint l = none) ∧
    ((line_read [String.toList "xx", String.toList "-3"]).1.stopping_time = 0 ∧
     (line_read [String.toList "xx", String.toList "-3"]).1.even = 0 ∧
     (line_read [String.toList "xx", String.toList "-3"]).1.odd = 0 ∧
     (line_read [String.toList "xx", String.toList "-3"]).1.max_index = 0 ∧
     (line_read [String.toList "xx", String.toList "-3"]).1.max_value = 0) :=
  ⟨by decide, all_failing_lines_keep_initial_stats _ (by decide)⟩

/-- C8: when `parse_input` fails with InvalidInput, `main` only prints the
rejection message: no output sink is created and no sequence element is
written. -/
theorem invalid_input_creates_no_sink (s : List Char) (fuel : Nat)
    (h : parse_input s = ParseOutcome.invalid) :
    mainTrace s fuel = [Event.rejectInput] ∧
    Event.createSink ∉ mainTrace s fuel ∧
    ∀ v, Event.writeLine v ∉ mainTrace s fuel := by
  have ht : mainTrace s fuel = [Event.rejectInput] := by
    unfold mainTrace; rw [h]
  refine ⟨ht, ?_, ?_⟩
  · rw [ht]; decide
  · intro v; rw [ht]; simp

/-! Lemmas about the collector's fold. -/

theorem stepStats_max (i : Nat) (st : Stats) (v : Int) :
    (stepStats i st v).max_value = (if st.max_value < v then v else st.max_value) ∧
    (stepStats i st v).max_index = (if st.max_value < v then i + 1 else st.max_index) := by
  unfold stepStats
  by_cases hp : Int.tmod v 2 = 0 <;> by_cases hm : st.max_value < v <;>
    simp [hp, hm]

theorem stepStats_count (i : Nat) (st : Stats) (v : Int) :
    (stepStats i st v).even + (stepStats i st v).odd = st.even + st.odd + 1 ∧
    (stepStats i st v).stopping_time = i + 1 := by
  unfold stepStats
  by_cases hp : Int.tmod v 2 = 0 <;> by_cases hm : st.max_value < v <;>
    simp [hp, hm] <;> omega

theorem lineReadAux_all_parse (ls : List (List Char)) :
    ∀ i st ws, (∀ l ∈ ls, (parse_bigint l).isSome) →
      (lineReadAux i st ws ls).1 = foldStats i st (ls.filterMap parse_bigint) := by
  induction ls with
  | nil => intro i st ws _; rfl
  | cons l ls ih =>
    intro i st ws h
    obtain ⟨v, hv⟩ := Option.isSome_iff_exists.mp (h l (List.mem_cons_self l ls))
    simp only [lineReadAux, List.filterMap_cons, hv, foldStats]
    exact ih (i + 1) (stepStats i st v) ws fun x hx => h x (List.mem_cons_of_mem l hx)

theorem parse_bigint_pos (l : List Char) (v : Int) (h : parse_bigint l = some v) :
    0 < v := by
  unfold parse_bigint at h
  cases hp : parseIntStr (trimChars l) with
  | none => rw [hp] at h; exact absurd h (by simp)
  | some w =>
    rw [hp] at h
    dsimp only at h
    by_cases hw : 0 < w
    · rw [if_pos hw] at h
      have := Option.some.inj h
      omega
    · rw [if_neg hw] at h; exact absurd h (by simp)

theorem getD_append_left (l1 l2 : List Int) (j : Nat) (h : j < l1.length) :
    (l1 ++ l2).getD j 0 = l1.getD j 0 := by
  simp [List.getD_eq_getElem?_getD, List.getElem?_append_left h]

theorem getD_append_self (l1 : List Int) (v : Int) :
    (l1 ++ [v]).getD l1.length 0 = v := by
  simp [List.getD_eq_getElem?_getD, List.getElem?_append_right (le_refl l1.length)]

theorem maxInv_step (ps : List Int) (st : Stats) (v : Int)
    (hinv : MaxInv ps st) (hv : 0 < v) :
    MaxInv (ps ++ [v]) (stepStats ps.length st v) := by
  obtain ⟨hlen, hemp, hne, hstrict, hall⟩ := hinv
  obtain ⟨hmax, hidx⟩ := stepStats_max ps.length st v
  have hlen1 : (ps ++ [v]).length = ps.length + 1 := by
    rw [List.length_append]; rfl
  by_cases hrepl : st.max_value < v
  · rw [if_pos hrepl] at hmax hidx
    refine ⟨?_, ?_, ?_, ?_, ?_⟩
    · rw [hidx, hlen1]
    · intro habs; simp at habs
    · intro _
      refine ⟨by omega, ?_⟩
      rw [hidx, hmax, Nat.add_sub_cancel, getD_append_self]
    · intro j hj
      rw [hidx, Nat.add_sub_cancel] at hj
      rw [hmax, getD_append_left ps [v] j hj]
      exact lt_of_le_of_lt (hall j hj) hrepl
    · intro j hj
      rw [hlen1] at hj
      rw [hmax]
      rcases Nat.lt_or_ge j ps.length with hcase | hcase
      · rw [getD_append_left ps [v] j hcase]
        exact le_of_lt (lt_of_le_of_lt (hall j hcase) hrepl)
      · have : j = ps.length := by omega
        rw [this, getD_append_self]
  · rw [if_neg hrepl] at hmax hidx
    have hvle : v ≤ st.max_value := le_of_not_lt hrepl
    have hps : ps ≠ [] := by
      intro habs
      obtain ⟨_, hmv⟩ := hemp habs
      omega
    obtain ⟨hge1, hat⟩ := hne hps
    have hplen : 0 < ps.length := List.length_pos.mpr hps
    refine ⟨?_, ?_, ?_, ?_, ?_⟩
    · rw [hidx, hlen1]; omega
    · intro habs; simp at habs
    · intro _
      refine ⟨by omega, ?_⟩
      rw [hidx, hmax, getD_append_left ps [v] _ (by omega)]
      exact hat
    · intro j hj
      rw [hidx] at hj
      rw [hmax, getD_append_left ps [v] j (by omega)]
      exact hstrict j hj
    · intro j hj
      rw [hlen1] at hj
      rw [hmax]
      rcases Nat.lt_or_ge j ps.length with hcase | hcase
      · rw [getD_append_left ps [v] j hcase]
        exact hall j hcase
      · have : j = ps.length := by omega
        rw [this, getD_append_self]
        exact hvle

theorem maxInv_fold (vs : List Int) :
    ∀ ps st, MaxInv ps st → (∀ v ∈ vs, 0 < v) →
      MaxInv (ps ++ vs) (foldStats ps.length st vs) := by
  induction vs with
  | nil => intro ps st h _; simpa using h
  | cons v vs ih =>
    intro ps st h hpos
    have h1 := maxInv_step ps st v h (hpos v (List.mem_cons_self v vs))
    have h2 := ih (ps ++ [v]) (stepStats ps.length st v) h1
      fun x hx => hpos x (List.mem_cons_of_mem v hx)
    rw [List.length_append] at h2
    rw [List.append_assoc, List.singleton_append] at h2
    simpa [foldStats] using h2

/-- C5: when every line parses, the collector's max_index is the 1-based
position of the first occurrence of the maximum value (values before it
are strictly smaller, all values are at most the maximum); on lines
5, 9, 9, 3 the result is max_value = 9 at max_index = 2. -/
theorem max_position_is_first_occurrence (lines : List (List Char))
    (hall : ∀ l ∈ lines, (parse_bigint l).isSome) (hne : lines ≠ []) :
    1 ≤ (line_read lines).1.max_index ∧
    (line_read lines).1.max_index ≤ (lines.filterMap parse_bigint).length ∧
    (lines.filterMap parse_bigint).getD ((line_read lines).1.max_index - 1) 0
      = (line_read lines).1.max_value ∧
    (∀ j, j < (line_read lines).1.max_index - 1 →
      (lines.filterMap parse_bigint).getD j 0 < (line_read lines).1.max_value) ∧
    (∀ j, j < (lines.filterMap parse_bigint).length →
      (lines.filterMap parse_bigint).getD j 0 ≤ (line_read lines).1.max_value) ∧
    (line_read [String.toList "5", String.toList "9", String.toList "9",
      String.toList "3"]).1.max_value = 9 ∧
    (line_read [String.toList "5", String.toList "9", String.toList "9",
      String.toList "3"]).1.max_index = 2 := by
  have hbridge := lineReadAux_all_parse lines 0 initStats [] hall
  have hinv0 : MaxInv [] initStats := by
    refine ⟨by simp [initStats], fun _ => ⟨rfl, rfl⟩, fun habs => absurd rfl habs,
      ?_, ?_⟩ <;> intro j hj <;> simp [initStats] at hj
  have hpos : ∀ v ∈ lines.filterMap parse_bigint, 0 < v := by
    intro v hv
    obtain ⟨l, _, hparse⟩ := List.mem_filterMap.mp hv
    exact parse_bigint_pos l v hparse
  have hfold := maxInv_fold (lines.filterMap parse_bigint) [] initStats hinv0 hpos
  simp only [List.nil_append, List.length_nil] at hfold
  have hvne : lines.filterMap parse_bigint ≠ [] := by
    cases lines with
    | nil => exact absurd rfl hne
    | cons l ls =>
      obtain ⟨v, hv⟩ := Option.isSome_iff_exists.mp (hall l (List.mem_cons_self l ls))
      simp [List.filterMap_cons, hv]
  unfold line_read
  rw [hbridge]
  obtain ⟨h1, _, h3, h4, h5⟩ := hfold
  obtain ⟨h3a, h3b⟩ := h3 hvne
  exact ⟨h3a, h1, h3b, h4, h5, by decide, by decide⟩

/-- Witness for C5 on lines 5, 9, 9, 3. -/
theorem max_position_is_first_occurrence_witness :
    (line_read [String.toList "5", String.toList "9", String.toList "9",
      String.toList "3"]).1.max_value = 9 ∧
    (line_read [String.toList "5", String.toList "9", String.toList "9",
      String.toList "3"]).1.max_index = 2 :=
  (max_position_is_first_occurrence
    [String.toList "5", String.toList "9", String.toList "9", String.toList "3"]
    (by decide) (by decide)).2.2.2.2.2

/-! Decimal round trip: the generator's `writeln!` output re-parses to the
same value, line by line. -/

theorem digitVal_ofNat (d : Nat) (hd : d < 10) : digitVal (Char.ofNat (48 + d)) = d := by
  interval_cases d <;> decide

theorem isDigit_ofNat (d : Nat) (hd : d < 10) : (Char.ofNat (48 + d)).isDigit = true := by
  interval_cases d <;> decide

theorem not_ws_of_isDigit (c : Char) (h : c.isDigit = true) :
    c.isWhitespace = false := by
  cases hw : c.isWhitespace
  · rfl
  · exfalso
    simp only [Char.isWhitespace, Bool.or_eq_true, decide_eq_true_eq] at hw
    rcases hw with ((h1 | h1) | h1) | h1 <;> subst h1 <;> exact absurd h (by decide)

theorem dropWhile_ws_of_digits (l : List Char) (hl : l.all Char.isDigit = true) :
    l.dropWhile Char.isWhitespace = l := by
  cases l with
  | nil => rfl
  | cons c l =>
    rw [List.all_cons, Bool.and_eq_true] at hl
    rw [List.dropWhile_cons, not_ws_of_isDigit c hl.1]
    simp

theorem trimChars_of_digits (cs : List Char) (h : cs.all Char.isDigit = true) :
    trimChars cs = cs := by
  unfold trimChars
  rw [dropWhile_ws_of_digits cs h,
    dropWhile_ws_of_digits cs.reverse (by rw [List.all_reverse]; exact h),
    List.reverse_reverse]

theorem foldr_digit_chars (L : List Nat) (h : ∀ d ∈ L, d < 10) :
    List.foldr (fun c a => 10 * a + digitVal c) 0
      (L.map fun d => Char.ofNat (48 + d)) = Nat.ofDigits 10 L := by
  induction L with
  | nil => rfl
  | cons d L ih =>
    rw [List.map_cons, List.foldr_cons,
      ih fun x hx => h x (List.mem_cons_of_mem d hx),
      digitVal_ofNat d (h d (List.mem_cons_self d L)), Nat.ofDigits_cons]
    ring

theorem digitsToNat_natToDecimal (m : Nat) : digitsToNat (natToDecimal m) = m := by
  have h1 := foldr_digit_chars (Nat.digits 10 m)
    fun d hd => Nat.digits_lt_base (by norm_num) hd
  unfold digitsToNat natToDecimal
  rw [List.foldl_reverse]
  exact h1.trans (Nat.ofDigits_digits 10 m)

theorem natToDecimal_all_digits (m : Nat) :
    (natToDecimal m).all Char.isDigit = true := by
  rw [List.all_eq_true]
  intro c hc
  unfold natToDecimal at hc
  rw [List.mem_reverse] at hc
  obtain ⟨d, hd, rfl⟩ := List.mem_map.mp hc
  exact isDigit_ofNat d (Nat.digits_lt_base (by norm_num) hd)

theorem natToDecimal_ne_nil (m : Nat) (hm : m ≠ 0) : natToDecimal m ≠ [] := by
  unfold natToDecimal
  rw [ne_eq, List.reverse_eq_nil_iff, List.map_eq_nil_iff]
  exact Nat.digits_ne_nil_iff_ne_zero.mpr hm

theorem parseIntStr_digits (cs : List Char) (hne : cs ≠ [])
    (h : cs.all Char.isDigit = true) :
    parseIntStr cs = some (digitsToNat cs : Int) := by
  cases cs with
  | nil => exact absurd rfl hne
  | cons c ds =>
    have hc : c.isDigit = true := by
      rw [List.all_cons, Bool.and_eq_true] at h; exact h.1
    have hplus : ¬c = '+' := by
      intro he; rw [he] at hc; exact absurd hc (by decide)
    have hminus : ¬c = '-' := by
      intro he; rw [he] at hc; exact absurd hc (by decide)
    simp only [parseIntStr, if_neg hplus, if_neg hminus, h, if_true]

theorem parse_bigint_natToDecimal (v : Int) (hv : 0 < v) :
    parse_bigint (natToDecimal v.toNat) = some v := by
  have hm : v.toNat ≠ 0 := by omega
  have hall := natToDecimal_all_digits v.toNat
  have hvnat : ((v.toNat : Nat) : Int) = v := Int.toNat_of_nonneg hv.le
  unfold parse_bigint
  rw [trimChars_of_digits _ hall,
    parseIntStr_digits _ (natToDecimal_ne_nil v.toNat hm) hall,
    digitsToNat_natToDecimal, hvnat]
  dsimp only
  rw [if_pos hv]

theorem foldStats_count (vs : List Int) :
    ∀ i st, (foldStats i st vs).even + (foldStats i st vs).odd
        = st.even + st.odd + vs.length ∧
      (foldStats i st vs).stopping_time
        = (if vs = [] then st.stopping_time else i + vs.length) := by
  induction vs with
  | nil => intro i st; simp [foldStats]
  | cons v vs ih =>
    intro i st
    obtain ⟨hc, hs⟩ := ih (i + 1) (stepStats i st v)
    obtain ⟨hsc, hst⟩ := stepStats_count i st v
    refine ⟨?_, ?_⟩
    · simp only [foldStats]
      rw [hc, hsc, List.length_cons]
      omega
    · simp only [foldStats]
      rw [hs]
      by_cases hvs : vs = []
      · subst hvs
        simp [hst]
      · simp only [hvs, if_false, List.length_cons, if_neg (List.cons_ne_nil v vs)]
        omega

theorem filterMap_rendered (L : List Int) (h : ∀ v ∈ L, 0 < v) :
    L.filterMap (fun v => parse_bigint (natToDecimal v.toNat)) = L := by
  induction L with
  | nil => rfl
  | cons v L ih =>
    rw [List.filterMap_cons]
    rw [parse_bigint_natToDecimal v (h v (List.mem_cons_self v L))]
    rw [ih fun x hx => h x (List.mem_cons_of_mem v hx)]

/-- C7: for a positive start value whose generated sequence terminates at
1, feeding the generator's written lines back to the collector yields
stopping_time equal to the number of generated elements, and
even + odd = stopping_time. -/
theorem round_trip_stats (n : Int) (fuel : Nat) (hn : 0 < n)
    (_hterm : (collatzList fuel n).getLast? = some 1 ∨ n = 1) :
    (line_read ((collatzList fuel n).map
        fun v => natToDecimal v.toNat)).1.stopping_time
      = (collatzList fuel n).length ∧
    (line_read ((collatzList fuel n).map fun v => natToDecimal v.toNat)).1.even +
      (line_read ((collatzList fuel n).map fun v => natToDecimal v.toNat)).1.odd
      = (collatzList fuel n).length := by
  have hpos : ∀ v ∈ collatzList fuel n, 0 < v := collatzList_pos fuel n hn
  have hall : ∀ l ∈ (collatzList fuel n).map fun v => natToDecimal v.toNat,
      (parse_bigint l).isSome := by
    intro l hl
    obtain ⟨v, hv, rfl⟩ := List.mem_map.mp hl
    rw [parse_bigint_natToDecimal v (hpos v hv)]
    rfl
  have hbridge := lineReadAux_all_parse
    ((collatzList fuel n).map fun v => natToDecimal v.toNat) 0 initStats [] hall
  have hfm : ((collatzList fuel n).map fun v => natToDecimal v.toNat).filterMap
      parse_bigint = collatzList fuel n := by
    rw [List.filterMap_map]
    exact filterMap_rendered (collatzList fuel n) hpos
  unfold line_read
  rw [hbridge, hfm]
  obtain ⟨hc, hs⟩ := foldStats_count (collatzList fuel n) 0 initStats
  refine ⟨?_, ?_⟩
  · rw [hs]
    by_cases hL0 : collatzList fuel n = []
    · simp [hL0, initStats]
    · simp [hL0]
  · rw [hc]
    simp [initStats]

/-- Witness for C7 at n = 6, fuel = 8. -/
theorem round_trip_stats_witness :
    (0 : Int) < 6 ∧
    ((collatzList 8 6).getLast? = some 1 ∨ (6 : Int) = 1) ∧
    ((line_read ((collatzList 8 6).map fun v => natToDecimal v.toNat)).1.stopping_time
       = (collatzList 8 6).length ∧
     (line_read ((collatzList 8 6).map fun v => natToDecimal v.toNat)).1.even +
       (line_read ((collatzList 8 6).map fun v => natToDecimal v.toNat)).1.odd
       = (collatzList 8 6).length) :=
  ⟨by norm_num, Or.inl (by decide),
    round_trip_stats 6 8 (by norm_num) (Or.inl (by decide))⟩

/-- Witness for C8 at input "abc". -/
theorem invalid_input_creates_no_sink_witness :
    parse_input (String.toList "abc") = ParseOutcome.invalid ∧
    (mainTrace (String.toList "abc") 5 = [Event.rejectInput] ∧
     Event.createSink ∉ mainTrace (String.toList "abc") 5 ∧
     ∀ v, Event.writeLine v ∉ mainTrace (String.toList "abc") 5) :=
  ⟨by decide, invalid_input_creates_no_sink (String.toList "abc") 5 (by decide)⟩

end Collatz
